import Mathlib

/-!
Shallow embedding of the `rust-json-parser` repository (src/lib.rs).

Modelling conventions:
* Rust `&[char]` slices become `List Char`; `&chars[k..]` becomes `List.drop k`
  guarded by the bound check that Rust performs (out-of-range slicing panics).
* Rust `String` values (the string accumulator, map keys) become `List Char`.
* Rust `i64` arithmetic is modelled on `Int` with explicit two's-complement
  wrapping (`wrap64`), i.e. release-mode Rust semantics where overflow wraps.
* Rust `f64` arithmetic in `assemble_num` (`powf`, `*`, `+`, negation on
  exact decimal inputs) is modelled as exact rational arithmetic on `ℚ`.
* A Rust panic (slice index out of bounds) is the distinguished error
  `ParseJSONError.panicked`; an ordinary `Err(ParseJSONError::new(m))` is
  `ParseJSONError.msg m`.
* The mutually recursive parsers are indexed by a fuel argument; `none`
  means the fuel ran out (the Rust originals always terminate, so every
  concrete run below is performed with ample fuel).
* Rust `HashMap<String, JSONValue>` becomes an association list with
  last-write-wins insertion (`insert_kv`); no claim depends on map order.
-/

/-- Result values of the parser, mirroring `enum JSONValue` in src/lib.rs
(`Decimal(f64)` carries an exact rational in this model). -/
inductive JSONValue where
  | Integer : Int → JSONValue
  | Decimal : ℚ → JSONValue
  | List : List JSONValue → JSONValue
  | Map : List (List Char × JSONValue) → JSONValue
  | Boolean : Bool → JSONValue
  | String : List Char → JSONValue
  | Null : JSONValue

/-- Errors of a parse run: `msg` mirrors `ParseJSONError` with its message
string, `panicked` marks a Rust panic (out-of-bounds slice index). -/
inductive ParseJSONError where
  | msg : String → ParseJSONError
  | panicked : ParseJSONError
deriving DecidableEq

/-- Abbreviation for the result of one fueled parser run. -/
abbrev PResult (α : Type) : Type := Option (Except ParseJSONError α)

/-- Two's-complement wrapping of an integer into the `i64` range,
modelling Rust release-mode overflow semantics. -/
def wrap64 (x : Int) : Int := (x + 2 ^ 63) % 2 ^ 64 - 2 ^ 63

/-- Unicode White_Space test, as Rust's `char::is_whitespace`. -/
def rust_is_whitespace (c : Char) : Bool :=
  let n := c.toNat
  decide ((0x9 ≤ n ∧ n ≤ 0xD) ∨ n = 0x20 ∨ n = 0x85 ∨ n = 0xA0 ∨ n = 0x1680 ∨
    (0x2000 ≤ n ∧ n ≤ 0x200A) ∨ n = 0x2028 ∨ n = 0x2029 ∨ n = 0x202F ∨
    n = 0x205F ∨ n = 0x3000)

/-- Embedding of `trim_start` (src/lib.rs:43): drop leading whitespace,
returning the remainder and the number of characters dropped. -/
def trim_start : List Char → List Char × Nat
  | [] => ([], 0)
  | c :: rest =>
    if rust_is_whitespace c then
      let r := trim_start rest
      (r.1, r.2 + 1)
    else (c :: rest, 0)

/-- Translation of the escape `match` inside `parse_string`
(src/lib.rs:86-91). -/
def escape_char (c : Char) : Char :=
  if c = 'n' then '\n' else if c = 't' then '\t' else if c = 'r' then '\r' else c

/-- Embedding of the `while` loop of `parse_string` (src/lib.rs:78-100):
`chars` is the part of the input not yet scanned (after the opening quote),
`out` the accumulated output, `i` the current index in the post-quote input. -/
def parse_string_loop : List Char → List Char → Nat → Except ParseJSONError (JSONValue × Nat)
  | [], _, _ => .error (.msg "Unclosed string")
  | c :: rest, out, i =>
    if c = '\\' then
      match rest with
      | [] => .error (.msg "")
      | next :: rest2 => parse_string_loop rest2 (out ++ [escape_char next]) (i + 2)
    else if c = '"' then .ok (.String out, i + 2)
    else parse_string_loop rest (out ++ [c]) (i + 1)

/-- Embedding of `parse_string` (src/lib.rs:74): strips the opening quote
(`&chars[1..]` panics on an empty slice) and runs the scanning loop. -/
def parse_string (chars : List Char) : PResult (JSONValue × Nat) :=
  match chars with
  | [] => some (.error .panicked)
  | _ :: rest => some (parse_string_loop rest [] 0)

/-- Rust's `(*c as i64) - ('0' as i64)` (src/lib.rs:209). -/
def digit_val (c : Char) : Int := (c.toNat : Int) - ('0'.toNat : Int)

/-- Embedding of `assemble_num` (src/lib.rs:226).  The `f64` computation
`10f64.powf(-length + decimal_index + 1) * decimal` and the following
additions and negations are modelled exactly on `ℚ`. -/
def assemble_num (num : Int) (decimal_index : Int) (decimal : Int) (length : Nat)
    (negative : Bool) : JSONValue :=
  let num1 : Int := if negative then wrap64 (-num) else num
  if decimal_index = -1 then .Integer num1
  else
    let dec : ℚ := (10 : ℚ) ^ (-(length : Int) + decimal_index + 1) * (decimal : ℚ)
    let r : ℚ := (num1 : ℚ) + dec
    .Decimal (if negative then -r else r)

/-- Embedding of the `for` loop of `parse_num` (src/lib.rs:204-222), with the
accumulators `num` and `decimal` updated with wrapping `i64` arithmetic. -/
def parse_num_loop : List Char → Int → Int → Int → Nat → Bool →
    Except ParseJSONError (JSONValue × Nat)
  | [], num, di, dec, length, neg => .ok (assemble_num num di dec length neg, length)
  | c :: rest, num, di, dec, length, neg =>
    if '0' ≤ c ∧ c ≤ '9' then
      if di = -1 then
        parse_num_loop rest (wrap64 (wrap64 (num * 10) + digit_val c)) di dec (length + 1) neg
      else
        parse_num_loop rest num di (wrap64 (wrap64 (dec * 10) + digit_val c)) (length + 1) neg
    else if c = '.' then
      if di ≠ -1 then .error (.msg "Extra decimal point in number")
      else parse_num_loop rest num (length : Int) dec (length + 1) neg
    else .ok (assemble_num num di dec length neg, length)

/-- Embedding of `parse_num` (src/lib.rs:193): reads the sign from
`chars[0]` (panicking on empty input) and runs the digit loop; when negative
the iterator skips the sign and `length` starts at 1. -/
def parse_num (chars : List Char) : PResult (JSONValue × Nat) :=
  match chars with
  | [] => some (.error .panicked)
  | c :: rest =>
    if c = '-' then some (parse_num_loop rest 0 (-1) 0 1 true)
    else some (parse_num_loop (c :: rest) 0 (-1) 0 0 false)

/-- Last-write-wins insertion into an association list, modelling
`HashMap::insert` (src/lib.rs:153). -/
def insert_kv : List (List Char × JSONValue) → List Char → JSONValue →
    List (List Char × JSONValue)
  | [], k, v => [(k, v)]
  | (k0, v0) :: rest, k, v =>
    if k0 = k then (k, v) :: rest else (k0, v0) :: insert_kv rest k v

mutual

/-- Embedding of the dispatcher `parse_json` (src/lib.rs:58): empty input is
an error, otherwise the first character selects the production.  The three
literal arms return fixed lengths without validating further characters. -/
def parse_json : Nat → List Char → PResult (JSONValue × Nat)
  | 0, _ => none
  | fuel + 1, chars =>
    match chars with
    | [] => some (.error (.msg "Empty input"))
    | c :: _ =>
      if c = 't' then some (.ok (.Boolean true, 4))
      else if c = 'f' then some (.ok (.Boolean false, 5))
      else if c = 'n' then some (.ok (.Null, 4))
      else if c = '"' then parse_string chars
      else if c = '[' then parse_list fuel chars
      else if c = '{' then parse_map fuel chars
      else if ('0' ≤ c ∧ c ≤ '9') ∨ c = '.' then parse_num chars
      else some (.error (.msg "Invalid input"))

/-- Embedding of `parse_json_trim` (src/lib.rs:51): trim, dispatch, and add
the trimmed count to the consumed length. -/
def parse_json_trim : Nat → List Char → PResult (JSONValue × Nat)
  | 0, _ => none
  | fuel + 1, chars =>
    match parse_json fuel (trim_start chars).1 with
    | none => none
    | some (.error e) => some (.error e)
    | some (.ok (v, n)) => some (.ok (v, n + (trim_start chars).2))

/-- Embedding of `parse_list` (src/lib.rs:104): drops the opening bracket,
then reads `chars[0]` of the remainder (a panic when the input was just
`"["`); an immediate `]` returns the empty list with length 1 (the closing
bracket is not counted), otherwise the element loop runs. -/
def parse_list : Nat → List Char → PResult (JSONValue × Nat)
  | 0, _ => none
  | fuel + 1, chars =>
    match chars with
    | [] => some (.error .panicked)
    | _ :: [] => some (.error .panicked)
    | _ :: r :: rtail =>
      if r = ']' then some (.ok (.List [], 1))
      else parse_list_loop fuel (r :: rtail) 1 []

/-- Embedding of the `loop` of `parse_list` (src/lib.rs:111-136): parse an
element, advance by its consumed length (Rust panics when it exceeds the
remaining input), trim, count the delimiter, and dispatch on `,` / `]`. -/
def parse_list_loop : Nat → List Char → Nat → List JSONValue → PResult (JSONValue × Nat)
  | 0, _, _, _ => none
  | fuel + 1, chars, length, acc =>
    match chars with
    | [] => some (.error (.msg "Unclosed list"))
    | _ :: _ =>
      match parse_json_trim fuel chars with
      | none => none
      | some (.error e) => some (.error e)
      | some (.ok (v, n)) =>
        if n ≤ chars.length then
          match (trim_start (chars.drop n)).1 with
          | [] => some (.error (.msg "Unclosed list"))
          | c :: rest3 =>
            if c = ',' then
              parse_list_loop fuel rest3 (length + n + (trim_start (chars.drop n)).2 + 1)
                (acc ++ [v])
            else if c = ']' then
              some (.ok (.List (acc ++ [v]), length + n + (trim_start (chars.drop n)).2 + 1))
            else some (.error (.msg "Improperly delimited list"))
        else some (.error .panicked)

/-- Embedding of `parse_map` (src/lib.rs:139): symmetric to `parse_list`,
with the same uncounted closing brace on the empty fast path and the same
panic on input `"{"`. -/
def parse_map : Nat → List Char → PResult (JSONValue × Nat)
  | 0, _ => none
  | fuel + 1, chars =>
    match chars with
    | [] => some (.error .panicked)
    | _ :: [] => some (.error .panicked)
    | _ :: r :: rtail =>
      if r = '}' then some (.ok (.Map [], 1))
      else parse_map_loop fuel (r :: rtail) 1 []

/-- Embedding of the `loop` of `parse_map` (src/lib.rs:146-171); the
truncated-input and bad-delimiter messages inside the loop reuse the list
wording exactly as the source does (src/lib.rs:158,168). -/
def parse_map_loop : Nat → List Char → Nat → List (List Char × JSONValue) →
    PResult (JSONValue × Nat)
  | 0, _, _, _ => none
  | fuel + 1, chars, length, acc =>
    match chars with
    | [] => some (.error (.msg "Unclosed map"))
    | _ :: _ =>
      match parse_map_entry fuel chars with
      | none => none
      | some (.error e) => some (.error e)
      | some (.ok (k, v, n)) =>
        if n ≤ chars.length then
          match (trim_start (chars.drop n)).1 with
          | [] => some (.error (.msg "Unclosed list"))
          | c :: rest3 =>
            if c = ',' then
              parse_map_loop fuel rest3 (length + n + (trim_start (chars.drop n)).2 + 1)
                (insert_kv acc k v)
            else if c = '}' then
              some (.ok (.Map (insert_kv acc k v), length + n + (trim_start (chars.drop n)).2 + 1))
            else some (.error (.msg "Improperly delimited list"))
        else some (.error .panicked)

/-- Embedding of `parse_map_entry` (src/lib.rs:174): parse the key, require
it to be a string, advance past it (`&chars[length..]` panics when the key
consumed more than is available), trim, require `:`, parse the value. -/
def parse_map_entry : Nat → List Char → PResult (List Char × JSONValue × Nat)
  | 0, _ => none
  | fuel + 1, chars =>
    match parse_json_trim fuel chars with
    | none => none
    | some (.error e) => some (.error e)
    | some (.ok (key, n)) =>
      match key with
      | .String s =>
        if n ≤ chars.length then
          match (trim_start (chars.drop n)).1 with
          | ':' :: rest =>
            match parse_json_trim fuel rest with
            | none => none
            | some (.error e) => some (.error e)
            | some (.ok (v, m)) =>
              some (.ok (s, v, n + (trim_start (chars.drop n)).2 + 1 + m))
          | _ => some (.error (.msg "Improperly delimited map entry"))
        else some (.error .panicked)
      | _ => some (.error (.msg "Map key is not string"))

end

/-- Fuel that is ample for any input of the given length: each character of
input supports at most a bounded chain of mutual calls. -/
def FUEL (chars : List Char) : Nat := 5 * chars.length + 8

/-- Embedding of `FromStr for JSONValue` (src/lib.rs:32): trim leading
whitespace, run `parse_json_trim`, and discard the consumed length. -/
def from_str (s : List Char) : Option (Except ParseJSONError JSONValue) :=
  match parse_json_trim (FUEL (trim_start s).1) (trim_start s).1 with
  | none => none
  | some (.error e) => some (.error e)
  | some (.ok (v, _)) => some (.ok v)

/-- Specification-side definition (spec section 4.3): index of the first
unescaped closing quote in the sequence after the opening quote, with each
backslash escape spanning two characters; `none` when the sequence ends
(possibly in a dangling escape) without an unescaped closing quote. -/
def spec_closing_quote_index : List Char → Option Nat
  | [] => none
  | c :: rest =>
    if c = '\\' then
      match rest with
      | [] => none
      | _ :: rest2 => (spec_closing_quote_index rest2).map (· + 2)
    else if c = '"' then some 0
    else (spec_closing_quote_index rest).map (· + 1)

/-- Specification-side definition (spec section 4.3): the decoded text of a
string body up to the first unescaped closing quote, each two-character
escape replaced by the escape table and every other character kept. -/
def spec_decode : List Char → List Char
  | [] => []
  | c :: rest =>
    if c = '\\' then
      match rest with
      | [] => []
      | e :: rest2 => escape_char e :: spec_decode rest2
    else if c = '"' then []
    else c :: spec_decode rest

theorem trim_start_fst_eq_drop : ∀ s : List Char, (trim_start s).1 = s.drop (trim_start s).2 := by
  intro s
  induction s with
  | nil => simp [trim_start]
  | cons c rest ih =>
    by_cases h : rust_is_whitespace c
    · simp [trim_start, h, ih]
    · simp [trim_start, h]

theorem psl_esc (e : Char) (rest2 out : List Char) (i : Nat) :
    parse_string_loop ('\\' :: e :: rest2) out i =
      parse_string_loop rest2 (out ++ [escape_char e]) (i + 2) := by
  unfold parse_string_loop
  rw [if_pos rfl, ← parse_string_loop.eq_def]

theorem psl_esc_dangling (out : List Char) (i : Nat) :
    parse_string_loop ['\\'] out i = .error (.msg "") := by
  unfold parse_string_loop
  rfl

theorem psl_quote (rest out : List Char) (i : Nat) :
    parse_string_loop ('"' :: rest) out i = .ok (.String out, i + 2) := by
  unfold parse_string_loop
  rfl

theorem psl_other (c : Char) (rest out : List Char) (i : Nat) (hc : c ≠ '\\')
    (hq : c ≠ '"') :
    parse_string_loop (c :: rest) out i = parse_string_loop rest (out ++ [c]) (i + 1) := by
  unfold parse_string_loop
  rw [if_neg hc, if_neg hq, ← parse_string_loop.eq_def]

theorem scqi_esc (e : Char) (rest2 : List Char) :
    spec_closing_quote_index ('\\' :: e :: rest2) =
      (spec_closing_quote_index rest2).map (· + 2) := by
  unfold spec_closing_quote_index
  rw [if_pos rfl, ← spec_closing_quote_index.eq_def]

theorem scqi_quote (rest : List Char) :
    spec_closing_quote_index ('"' :: rest) = some 0 := by
  unfold spec_closing_quote_index
  rfl

theorem scqi_other (c : Char) (rest : List Char) (hc : c ≠ '\\') (hq : c ≠ '"') :
    spec_closing_quote_index (c :: rest) = (spec_closing_quote_index rest).map (· + 1) := by
  unfold spec_closing_quote_index
  rw [if_neg hc, if_neg hq, ← spec_closing_quote_index.eq_def]

theorem sd_esc (e : Char) (rest2 : List Char) :
    spec_decode ('\\' :: e :: rest2) = escape_char e :: spec_decode rest2 := by
  unfold spec_decode
  rw [if_pos rfl, ← spec_decode.eq_def]

theorem sd_quote (rest : List Char) : spec_decode ('"' :: rest) = [] := by
  unfold spec_decode
  rfl

theorem sd_other (c : Char) (rest : List Char) (hc : c ≠ '\\') (hq : c ≠ '"') :
    spec_decode (c :: rest) = c :: spec_decode rest := by
  unfold spec_decode
  rw [if_neg hc, if_neg hq, ← spec_decode.eq_def]

theorem spec_closing_quote_index_lt :
    ∀ (k : Nat) (chars : List Char), chars.length ≤ k →
      ∀ j, spec_closing_quote_index chars = some j → j < chars.length := by
  intro k
  induction k with
  | zero =>
    intro chars hlen j h
    rw [List.length_eq_zero.mp (Nat.le_zero.mp hlen)] at h
    simp [spec_closing_quote_index] at h
  | succ k ih =>
    intro chars hlen j h
    match chars with
    | [] => simp [spec_closing_quote_index] at h
    | c :: rest =>
      by_cases hc : c = '\\'
      · subst hc
        match rest with
        | [] => simp [spec_closing_quote_index] at h
        | e :: rest2 =>
          rw [scqi_esc, Option.map_eq_some'] at h
          obtain ⟨j2, hj2, hj⟩ := h
          have hlen2 : rest2.length ≤ k := by
            simp only [List.length_cons] at hlen; omega
          have := ih rest2 hlen2 j2 hj2
          simp only [List.length_cons]
          omega
      · by_cases hq : c = '"'
        · subst hq
          rw [scqi_quote, Option.some.injEq] at h
          simp [← h]
        · rw [scqi_other c rest hc hq, Option.map_eq_some'] at h
          obtain ⟨j2, hj2, hj⟩ := h
          have hlen2 : rest.length ≤ k := by
            simp only [List.length_cons] at hlen; omega
          have := ih rest hlen2 j2 hj2
          simp only [List.length_cons]
          omega

theorem parse_string_loop_spec :
    ∀ (k : Nat) (chars : List Char), chars.length ≤ k → ∀ (out : List Char) (i : Nat),
      (∀ j, spec_closing_quote_index chars = some j →
        parse_string_loop chars out i = .ok (.String (out ++ spec_decode chars), i + j + 2))
      ∧ (spec_closing_quote_index chars = none →
        ∃ e, parse_string_loop chars out i = .error e) := by
  intro k
  induction k with
  | zero =>
    intro chars hlen out i
    rw [List.length_eq_zero.mp (Nat.le_zero.mp hlen)]
    exact ⟨fun j h => by simp [spec_closing_quote_index] at h,
      fun _ => ⟨.msg "Unclosed string", rfl⟩⟩
  | succ k ih =>
    intro chars hlen out i
    match chars with
    | [] =>
      exact ⟨fun j h => by simp [spec_closing_quote_index] at h,
        fun _ => ⟨.msg "Unclosed string", rfl⟩⟩
    | c :: rest =>
      by_cases hc : c = '\\'
      · subst hc
        match rest with
        | [] =>
          refine ⟨fun j h => ?_, fun _ => ⟨.msg "", psl_esc_dangling out i⟩⟩
          simp [spec_closing_quote_index] at h
        | e :: rest2 =>
          have hlen2 : rest2.length ≤ k := by
            simp only [List.length_cons] at hlen; omega
          constructor
          · intro j h
            rw [scqi_esc, Option.map_eq_some'] at h
            obtain ⟨j2, hj2, hj⟩ := h
            have hrec := (ih rest2 hlen2 (out ++ [escape_char e]) (i + 2)).1 j2 hj2
            rw [psl_esc, hrec, sd_esc]
            rw [List.append_assoc, List.singleton_append]
            have : i + 2 + j2 + 2 = i + j + 2 := by omega
            rw [this]
          · intro h
            rw [scqi_esc, Option.map_eq_none'] at h
            obtain ⟨e2, hrec⟩ := (ih rest2 hlen2 (out ++ [escape_char e]) (i + 2)).2 h
            exact ⟨e2, by rw [psl_esc]; exact hrec⟩
      · by_cases hq : c = '"'
        · subst hq
          refine ⟨fun j h => ?_, fun h => ?_⟩
          · rw [scqi_quote, Option.some.injEq] at h
            rw [psl_quote, ← h, sd_quote, List.append_nil]
          · rw [scqi_quote] at h
            simp at h
        · have hlen2 : rest.length ≤ k := by
            simp only [List.length_cons] at hlen; omega
          constructor
          · intro j h
            rw [scqi_other c rest hc hq, Option.map_eq_some'] at h
            obtain ⟨j2, hj2, hj⟩ := h
            have hrec := (ih rest hlen2 (out ++ [c]) (i + 1)).1 j2 hj2
            rw [psl_other c rest out i hc hq, hrec, sd_other c rest hc hq]
            rw [List.append_assoc, List.singleton_append]
            have : i + 1 + j2 + 2 = i + j + 2 := by omega
            rw [this]
          · intro h
            rw [scqi_other c rest hc hq, Option.map_eq_none'] at h
            obtain ⟨e2, hrec⟩ := (ih rest hlen2 (out ++ [c]) (i + 1)).2 h
            exact ⟨e2, by rw [psl_other c rest out i hc hq]; exact hrec⟩

theorem parse_string_ok {chars : List Char} {v : JSONValue} {n : Nat}
    (h : parse_string chars = some (.ok (v, n))) :
    (∃ s, v = .String s) ∧ 1 ≤ n ∧ n ≤ chars.length := by
  cases chars with
  | nil => simp [parse_string] at h
  | cons c rest =>
    simp only [parse_string, Option.some.injEq] at h
    have hspec := parse_string_loop_spec rest.length rest le_rfl [] 0
    cases hq : spec_closing_quote_index rest with
    | none =>
      obtain ⟨e, he⟩ := hspec.2 hq
      rw [he] at h
      simp at h
    | some j =>
      have heq := hspec.1 j hq
      rw [heq] at h
      have hj := spec_closing_quote_index_lt rest.length rest le_rfl j hq
      obtain ⟨h3, h4⟩ : JSONValue.String (spec_decode rest) = v ∧ j + 2 = n := by
        simpa using h
      refine ⟨⟨spec_decode rest, h3.symm⟩, by omega, ?_⟩
      simp only [List.length_cons]
      omega

theorem assemble_num_shape (num di dec : Int) (length : Nat) (neg : Bool) :
    (∃ i, assemble_num num di dec length neg = .Integer i) ∨
    (∃ q, assemble_num num di dec length neg = .Decimal q) := by
  unfold assemble_num
  by_cases h : di = -1 <;> simp [h]

theorem parse_num_loop_ok :
    ∀ (chars : List Char) (num di dec : Int) (length : Nat) (neg : Bool)
      (v : JSONValue) (n : Nat),
      parse_num_loop chars num di dec length neg = .ok (v, n) →
      ((∃ i, v = .Integer i) ∨ (∃ q, v = .Decimal q)) ∧ n ≤ length + chars.length := by
  intro chars
  induction chars with
  | nil =>
    intro num di dec length neg v n h
    unfold parse_num_loop at h
    simp only [Except.ok.injEq, Prod.mk.injEq] at h
    obtain ⟨hv, hn⟩ := h
    subst hv hn
    exact ⟨assemble_num_shape num di dec length neg, by simp⟩
  | cons c rest ih =>
    intro num di dec length neg v n h
    unfold parse_num_loop at h
    split at h
    · split at h
      · have := ih _ _ _ _ _ _ _ h
        exact ⟨this.1, by simpa [Nat.add_comm, Nat.add_left_comm] using this.2⟩
      · have := ih _ _ _ _ _ _ _ h
        exact ⟨this.1, by simpa [Nat.add_comm, Nat.add_left_comm] using this.2⟩
    · split at h
      · split at h
        · simp at h
        · have := ih _ _ _ _ _ _ _ h
          exact ⟨this.1, by simpa [Nat.add_comm, Nat.add_left_comm] using this.2⟩
      · simp only [Except.ok.injEq, Prod.mk.injEq] at h
        obtain ⟨hv, hn⟩ := h
        subst hv hn
        exact ⟨assemble_num_shape num di dec length neg, by simp⟩

theorem parse_num_ok {chars : List Char} {v : JSONValue} {n : Nat}
    (h : parse_num chars = some (.ok (v, n))) :
    ((∃ i, v = .Integer i) ∨ (∃ q, v = .Decimal q)) ∧ n ≤ chars.length := by
  cases chars with
  | nil => simp [parse_num] at h
  | cons c rest =>
    simp only [parse_num] at h
    split at h
    · simp only [Option.some.injEq] at h
      have h2 := parse_num_loop_ok rest 0 (-1) 0 1 true v n h
      refine ⟨h2.1, ?_⟩
      have h3 := h2.2
      simp only [List.length_cons]
      omega
    · simp only [Option.some.injEq] at h
      have h2 := parse_num_loop_ok (c :: rest) 0 (-1) 0 0 false v n h
      refine ⟨h2.1, ?_⟩
      have h3 := h2.2
      omega

theorem trim_start_drop (chars : List Char) (n0 : Nat) :
    (trim_start (chars.drop n0)).1 = chars.drop (n0 + (trim_start (chars.drop n0)).2) := by
  rw [trim_start_fst_eq_drop (chars.drop n0), List.drop_drop]

theorem parse_list_loop_ok :
    ∀ (fuel : Nat) (chars : List Char) (length : Nat) (acc : List JSONValue)
      (v : JSONValue) (n : Nat),
      parse_list_loop fuel chars length acc = some (.ok (v, n)) →
      ∃ l j, v = .List l ∧ chars[j]? = some ']' ∧ n = length + j + 1 := by
  intro fuel
  induction fuel with
  | zero =>
    intro chars length acc v n h
    simp [parse_list_loop] at h
  | succ fuel ih =>
    intro chars length acc v n h
    cases chars with
    | nil =>
      unfold parse_list_loop at h
      simp at h
    | cons c0 crest =>
      unfold parse_list_loop at h
      split at h
      · simp at h
      · split at h
        · simp at h
        · simp at h
        · rename_i v0 n0 hjt
          split at h
          · rename_i hbound
            split at h
            · simp at h
            · rename_i c rest3 htr
              rw [trim_start_drop] at htr
              by_cases hc : c = ','
              · rw [if_pos hc] at h
                obtain ⟨l, j2, hv, hget, hn⟩ := ih _ _ _ _ _ h
                refine ⟨l, n0 + (trim_start ((c0 :: crest).drop n0)).2 + 1 + j2, hv, ?_,
                  by omega⟩
                have hidx : (c0 :: crest)[n0 + (trim_start ((c0 :: crest).drop n0)).2 +
                    (j2 + 1)]? = some ']' := by
                  rw [← List.getElem?_drop, htr, List.getElem?_cons_succ]
                  exact hget
                rw [← hidx]
                congr 1
                omega
              · rw [if_neg hc] at h
                by_cases hb : c = ']'
                · rw [if_pos hb] at h
                  simp only [Option.some.injEq, Except.ok.injEq, Prod.mk.injEq] at h
                  obtain ⟨hv, hn⟩ := h
                  refine ⟨acc ++ [v0], n0 + (trim_start ((c0 :: crest).drop n0)).2,
                    hv.symm, ?_, by omega⟩
                  rw [← List.head?_drop, htr, hb]
                  rfl
                · rw [if_neg hb] at h
                  simp at h
          · simp at h

theorem parse_list_ok {fuel : Nat} {chars : List Char} {v : JSONValue} {n : Nat}
    (h : parse_list fuel chars = some (.ok (v, n))) :
    ∃ l, v = .List l ∧ 1 ≤ n ∧ n ≤ chars.length ∧
      ((l = [] ∧ n = 1) ∨ chars[n - 1]? = some ']') := by
  cases fuel with
  | zero => simp [parse_list] at h
  | succ fuel =>
    cases chars with
    | nil =>
      unfold parse_list at h
      simp at h
    | cons a rest =>
      cases rest with
      | nil =>
        unfold parse_list at h
        simp at h
      | cons r rtail =>
        unfold parse_list at h
        split at h
        · simp at h
        · simp at h
        · rename_i x2 r2 rtail2 heq
          obtain ⟨rfl, rfl, rfl⟩ : a = x2 ∧ r = r2 ∧ rtail = rtail2 := by
            injection heq with h1 h2
            injection h2 with h2 h3
            exact ⟨h1, h2, h3⟩
          split at h
          · rename_i hclose
            simp only [Option.some.injEq, Except.ok.injEq, Prod.mk.injEq] at h
            obtain ⟨hv, hn⟩ := h
            refine ⟨[], hv.symm, by omega, by simp; omega, Or.inl ⟨rfl, hn.symm⟩⟩
          · obtain ⟨l, j, hv, hget, hn⟩ := parse_list_loop_ok _ _ _ _ _ _ h
            have hj : j < (r :: rtail).length := by
              rcases List.getElem?_eq_some.mp hget with ⟨hlt, _⟩
              exact hlt
            refine ⟨l, hv, by omega, ?_, Or.inr ?_⟩
            · simp only [List.length_cons] at hj ⊢
              omega
            · have hn1 : n - 1 = j + 1 := by omega
              rw [hn1, List.getElem?_cons_succ]
              exact hget

theorem parse_map_loop_ok :
    ∀ (fuel : Nat) (chars : List Char) (length : Nat) (acc : List (List Char × JSONValue))
      (v : JSONValue) (n : Nat),
      parse_map_loop fuel chars length acc = some (.ok (v, n)) →
      ∃ m j, v = .Map m ∧ chars[j]? = some '}' ∧ n = length + j + 1 := by
  intro fuel
  induction fuel with
  | zero =>
    intro chars length acc v n h
    simp [parse_map_loop] at h
  | succ fuel ih =>
    intro chars length acc v n h
    cases chars with
    | nil =>
      unfold parse_map_loop at h
      simp at h
    | cons c0 crest =>
      unfold parse_map_loop at h
      split at h
      · simp at h
      · split at h
        · simp at h
        · simp at h
        · rename_i k0 v0 n0 hjt
          split at h
          · rename_i hbound
            split at h
            · simp at h
            · rename_i c rest3 htr
              rw [trim_start_drop] at htr
              by_cases hc : c = ','
              · rw [if_pos hc] at h
                obtain ⟨m, j2, hv, hget, hn⟩ := ih _ _ _ _ _ h
                refine ⟨m, n0 + (trim_start ((c0 :: crest).drop n0)).2 + 1 + j2, hv, ?_,
                  by omega⟩
                have hidx : (c0 :: crest)[n0 + (trim_start ((c0 :: crest).drop n0)).2 +
                    (j2 + 1)]? = some '}' := by
                  rw [← List.getElem?_drop, htr, List.getElem?_cons_succ]
                  exact hget
                rw [← hidx]
                congr 1
                omega
              · rw [if_neg hc] at h
                by_cases hb : c = '}'
                · rw [if_pos hb] at h
                  simp only [Option.some.injEq, Except.ok.injEq, Prod.mk.injEq] at h
                  obtain ⟨hv, hn⟩ := h
                  refine ⟨insert_kv acc k0 v0,
                    n0 + (trim_start ((c0 :: crest).drop n0)).2, hv.symm, ?_, by omega⟩
                  rw [← List.head?_drop, htr, hb]
                  rfl
                · rw [if_neg hb] at h
                  simp at h
          · simp at h

theorem parse_map_ok {fuel : Nat} {chars : List Char} {v : JSONValue} {n : Nat}
    (h : parse_map fuel chars = some (.ok (v, n))) :
    ∃ m, v = .Map m ∧ 1 ≤ n ∧ n ≤ chars.length ∧
      ((m = [] ∧ n = 1) ∨ chars[n - 1]? = some '}') := by
  cases fuel with
  | zero => simp [parse_map] at h
  | succ fuel =>
    cases chars with
    | nil =>
      unfold parse_map at h
      simp at h
    | cons a rest =>
      cases rest with
      | nil =>
        unfold parse_map at h
        simp at h
      | cons r rtail =>
        unfold parse_map at h
        split at h
        · simp at h
        · simp at h
        · rename_i x2 r2 rtail2 heq
          obtain ⟨rfl, rfl, rfl⟩ : a = x2 ∧ r = r2 ∧ rtail = rtail2 := by
            injection heq with h1 h2
            injection h2 with h2 h3
            exact ⟨h1, h2, h3⟩
          split at h
          · rename_i hclose
            simp only [Option.some.injEq, Except.ok.injEq, Prod.mk.injEq] at h
            obtain ⟨hv, hn⟩ := h
            refine ⟨[], hv.symm, by omega, by simp; omega, Or.inl ⟨rfl, hn.symm⟩⟩
          · obtain ⟨m, j, hv, hget, hn⟩ := parse_map_loop_ok _ _ _ _ _ _ h
            have hj : j < (r :: rtail).length := by
              rcases List.getElem?_eq_some.mp hget with ⟨hlt, _⟩
              exact hlt
            refine ⟨m, hv, by omega, ?_, Or.inr ?_⟩
            · simp only [List.length_cons] at hj ⊢
              omega
            · have hn1 : n - 1 = j + 1 := by omega
              rw [hn1, List.getElem?_cons_succ]
              exact hget

theorem trim_start_snd_le : ∀ s : List Char, (trim_start s).2 ≤ s.length := by
  intro s
  induction s with
  | nil => simp [trim_start]
  | cons c rest ih =>
    by_cases h : rust_is_whitespace c
    · simp [trim_start, h]
      omega
    · simp [trim_start, h]

theorem parse_json_t (fuel : Nat) (rest : List Char) :
    parse_json (fuel + 1) ('t' :: rest) = some (.ok (.Boolean true, 4)) := by
  unfold parse_json
  rfl

theorem parse_json_f (fuel : Nat) (rest : List Char) :
    parse_json (fuel + 1) ('f' :: rest) = some (.ok (.Boolean false, 5)) := by
  unfold parse_json
  rfl

theorem parse_json_n (fuel : Nat) (rest : List Char) :
    parse_json (fuel + 1) ('n' :: rest) = some (.ok (.Null, 4)) := by
  unfold parse_json
  rfl

theorem parse_json_ok_cases {fuel : Nat} {c : Char} {rest : List Char} {v : JSONValue}
    {n : Nat} (h : parse_json (fuel + 1) (c :: rest) = some (.ok (v, n))) :
    (c = 't' ∧ v = .Boolean true ∧ n = 4) ∨
    (c = 'f' ∧ v = .Boolean false ∧ n = 5) ∨
    (c = 'n' ∧ v = .Null ∧ n = 4) ∨
    (c = '"' ∧ parse_string (c :: rest) = some (.ok (v, n))) ∨
    (c = '[' ∧ parse_list fuel (c :: rest) = some (.ok (v, n))) ∨
    (c = '{' ∧ parse_map fuel (c :: rest) = some (.ok (v, n))) ∨
    ((('0' ≤ c ∧ c ≤ '9') ∨ c = '.') ∧ parse_num (c :: rest) = some (.ok (v, n))) := by
  unfold parse_json at h
  split at h
  · simp at h
  · rename_i c2 rest2 heq
    obtain ⟨rfl, rfl⟩ : c = c2 ∧ rest = rest2 := by
      injection heq with h1 h2
      exact ⟨h1, h2⟩
    by_cases h1 : c = 't'
    · rw [if_pos h1] at h
      simp only [Option.some.injEq, Except.ok.injEq, Prod.mk.injEq] at h
      exact Or.inl ⟨h1, h.1.symm, h.2.symm⟩
    · rw [if_neg h1] at h
      by_cases h2 : c = 'f'
      · rw [if_pos h2] at h
        simp only [Option.some.injEq, Except.ok.injEq, Prod.mk.injEq] at h
        exact Or.inr (Or.inl ⟨h2, h.1.symm, h.2.symm⟩)
      · rw [if_neg h2] at h
        by_cases h3 : c = 'n'
        · rw [if_pos h3] at h
          simp only [Option.some.injEq, Except.ok.injEq, Prod.mk.injEq] at h
          exact Or.inr (Or.inr (Or.inl ⟨h3, h.1.symm, h.2.symm⟩))
        · rw [if_neg h3] at h
          by_cases h4 : c = '"'
          · rw [if_pos h4] at h
            exact Or.inr (Or.inr (Or.inr (Or.inl ⟨h4, h⟩)))
          · rw [if_neg h4] at h
            by_cases h5 : c = '['
            · rw [if_pos h5] at h
              exact Or.inr (Or.inr (Or.inr (Or.inr (Or.inl ⟨h5, h⟩))))
            · rw [if_neg h5] at h
              by_cases h6 : c = '{'
              · rw [if_pos h6] at h
                exact Or.inr (Or.inr (Or.inr (Or.inr (Or.inr (Or.inl ⟨h6, h⟩)))))
              · rw [if_neg h6] at h
                by_cases h7 : ('0' ≤ c ∧ c ≤ '9') ∨ c = '.'
                · rw [if_pos h7] at h
                  exact Or.inr (Or.inr (Or.inr (Or.inr (Or.inr (Or.inr ⟨h7, h⟩)))))
                · rw [if_neg h7] at h
                  simp at h

theorem parse_json_string_le {fuel : Nat} {chars : List Char} {s : List Char} {n : Nat}
    (h : parse_json fuel chars = some (.ok (.String s, n))) : n ≤ chars.length := by
  cases fuel with
  | zero => simp [parse_json] at h
  | succ fuel =>
    cases chars with
    | nil =>
      unfold parse_json at h
      simp at h
    | cons c rest =>
      rcases parse_json_ok_cases h with ⟨_, hv, _⟩ | ⟨_, hv, _⟩ | ⟨_, hv, _⟩ |
        ⟨_, hps⟩ | ⟨_, hpl⟩ | ⟨_, hpm⟩ | ⟨_, hpn⟩
      · simp at hv
      · simp at hv
      · simp at hv
      · exact (parse_string_ok hps).2.2
      · obtain ⟨l, hv, _⟩ := parse_list_ok hpl
        simp at hv
      · obtain ⟨m, hv, _⟩ := parse_map_ok hpm
        simp at hv
      · rcases (parse_num_ok hpn).1 with ⟨i, hv⟩ | ⟨q, hv⟩ <;> simp at hv

theorem parse_json_trim_string_le {fuel : Nat} {chars : List Char} {s : List Char} {n : Nat}
    (h : parse_json_trim fuel chars = some (.ok (.String s, n))) : n ≤ chars.length := by
  cases fuel with
  | zero => simp [parse_json_trim] at h
  | succ fuel =>
    unfold parse_json_trim at h
    split at h
    · simp at h
    · simp at h
    · rename_i v0 n0 hpj
      simp only [Option.some.injEq, Except.ok.injEq, Prod.mk.injEq] at h
      obtain ⟨hv, hn⟩ := h
      subst hv
      have h1 := parse_json_string_le hpj
      have h2 : (trim_start chars).1.length = chars.length - (trim_start chars).2 := by
        rw [trim_start_fst_eq_drop]
        simp [List.length_drop]
      have h3 := trim_start_snd_le chars
      omega

/-- C1: the spec promises a failure value, never a panic, on each listed
malformed input.  Five of the seven inputs do return the expected parse
errors, but on "[" and "{" the code indexes position 0 of the empty slice
left after dropping the bracket and panics (src/lib.rs:108,143), so the
claim fails on those two inputs (a slip: every other truncated structure is
handled with an explicit error such as "Unclosed list"). -/
theorem c1_malformed_inputs_eval :
    from_str "".toList = some (.error (.msg "Empty input")) ∧
    from_str ['['] = some (.error .panicked) ∧
    from_str ['\x7b'] = some (.error .panicked) ∧
    from_str "\"unterminated".toList = some (.error (.msg "Unclosed string")) ∧
    from_str "1.2.3".toList = some (.error (.msg "Extra decimal point in number")) ∧
    from_str "{1: 2}".toList = some (.error (.msg "Map key is not string")) ∧
    from_str "[1, 2".toList = some (.error (.msg "Unclosed list")) :=
  ⟨rfl, rfl, rfl, rfl, rfl, rfl, rfl⟩

/-- C2 counterexample: on the one-character input "t" the dispatcher returns
Ok with consumed-length 4, which exceeds the input length 1, refuting the
claim that every Ok result has consumed-length at most the input length. -/
theorem c2_counterexample :
    parse_json (FUEL "t".toList) "t".toList = some (.ok (.Boolean true, 4)) ∧
    ¬(4 ≤ "t".toList.length) :=
  ⟨rfl, by decide⟩

/-- C2 amended: whenever the dispatcher returns Ok and the first character is
not one of the unvalidated literal lookaheads t, f, n (whose fixed lengths 4,
5, 4 can overshoot), the consumed-length is at most the input length. -/
theorem c2_amended_consumed_le (fuel : Nat) (c : Char) (rest : List Char)
    (v : JSONValue) (n : Nat) (ht : c ≠ 't') (hf : c ≠ 'f') (hn : c ≠ 'n')
    (h : parse_json fuel (c :: rest) = some (.ok (v, n))) : n ≤ (c :: rest).length := by
  cases fuel with
  | zero => simp [parse_json] at h
  | succ fuel =>
    rcases parse_json_ok_cases h with ⟨hc, _⟩ | ⟨hc, _⟩ | ⟨hc, _⟩ | ⟨_, hps⟩ |
      ⟨_, hpl⟩ | ⟨_, hpm⟩ | ⟨_, hpn⟩
    · exact absurd hc ht
    · exact absurd hc hf
    · exact absurd hc hn
    · exact (parse_string_ok hps).2.2
    · obtain ⟨l, _, _, hle, _⟩ := parse_list_ok hpl
      exact hle
    · obtain ⟨m, _, _, hle, _⟩ := parse_map_ok hpm
      exact hle
    · exact (parse_num_ok hpn).2

/-- C2 amended witness: on input consisting of two double quotes the
dispatcher succeeds with consumed-length 2, which is at most the length 2. -/
theorem c2_amended_witness :
    parse_json 1 ('"' :: ['"']) = some (.ok (.String [], 2)) ∧
    (2 : Nat) ≤ ('"' :: ['"']).length :=
  ⟨rfl, c2_amended_consumed_le 1 '"' ['"'] (.String []) 2 (by decide) (by decide)
    (by decide) rfl⟩

/-- C3 counterexample: parsing "[]" succeeds with the empty List but with
consumed-length 1, not 2 as the claim states: the empty-collection fast path
returns before counting the closing bracket (src/lib.rs:108-110). -/
theorem c3_counterexample :
    parse_json (FUEL "[]".toList) "[]".toList = some (.ok (.List [], 1)) ∧
    (1 : Nat) ≠ 2 :=
  ⟨rfl, by decide⟩

/-- C3 amended: whenever the dispatcher succeeds on input starting with an
opening bracket or brace, the result is a List (resp. Map), the
consumed-length is between 1 and the input length, and either the result is
the empty collection with consumed-length 1 (the closing bracket is not
counted) or the last consumed character is a closing bracket (resp. brace);
nested structures are parsed recursively by the same dispatcher. -/
theorem c3_amended_spanning (fuel : Nat) (chars : List Char) (v : JSONValue) (n : Nat) :
    (chars.head? = some '[' → parse_json fuel chars = some (.ok (v, n)) →
      ∃ l, v = .List l ∧ 1 ≤ n ∧ n ≤ chars.length ∧
        ((l = [] ∧ n = 1) ∨ chars[n - 1]? = some ']')) ∧
    (chars.head? = some '{' → parse_json fuel chars = some (.ok (v, n)) →
      ∃ m, v = .Map m ∧ 1 ≤ n ∧ n ≤ chars.length ∧
        ((m = [] ∧ n = 1) ∨ chars[n - 1]? = some '}')) := by
  constructor
  · intro hhead h
    cases fuel with
    | zero => simp [parse_json] at h
    | succ fuel =>
      cases chars with
      | nil => simp at hhead
      | cons c rest =>
        obtain rfl : c = '[' := by simpa using hhead
        rcases parse_json_ok_cases h with ⟨hc, _⟩ | ⟨hc, _⟩ | ⟨hc, _⟩ | ⟨hc, _⟩ |
          ⟨_, hpl⟩ | ⟨hc, _⟩ | ⟨hc, _⟩
        · exact absurd hc (by decide)
        · exact absurd hc (by decide)
        · exact absurd hc (by decide)
        · exact absurd hc (by decide)
        · exact parse_list_ok hpl
        · exact absurd hc (by decide)
        · exact absurd hc (by decide)
  · intro hhead h
    cases fuel with
    | zero => simp [parse_json] at h
    | succ fuel =>
      cases chars with
      | nil => simp at hhead
      | cons c rest =>
        obtain rfl : c = '{' := by simpa using hhead
        rcases parse_json_ok_cases h with ⟨hc, _⟩ | ⟨hc, _⟩ | ⟨hc, _⟩ | ⟨hc, _⟩ |
          ⟨hc, _⟩ | ⟨_, hpm⟩ | ⟨hc, _⟩
        · exact absurd hc (by decide)
        · exact absurd hc (by decide)
        · exact absurd hc (by decide)
        · exact absurd hc (by decide)
        · exact absurd hc (by decide)
        · exact parse_map_ok hpm
        · exact absurd hc (by decide)

/-- C3 amended witness: parsing "[1]" succeeds with consumed-length 3 and the
last consumed character, at index 2, is the closing bracket. -/
theorem c3_amended_witness :
    parse_json 8 "[1]".toList = some (.ok (.List [.Integer 1], 3)) ∧
    ∃ l, (JSONValue.List [.Integer 1]) = .List l ∧ 1 ≤ 3 ∧ 3 ≤ "[1]".toList.length ∧
      ((l = [] ∧ 3 = 1) ∨ "[1]".toList[3 - 1]? = some ']') :=
  ⟨rfl, (c3_amended_spanning 8 "[1]".toList (.List [.Integer 1]) 3).1 rfl rfl⟩

/-- C4: the claim fails on the code.  The dispatcher has no arm for a leading
minus sign, so every numeral of the form "-"... is rejected with the
Invalid-input error instead of producing an Integer or Decimal; moreover the
number assembler applies the sign both to the integer part and to the
combined value (src/lib.rs:228-241), so even a direct call of the number
sub-parser on "-3.14" yields Decimal(2.86), not Decimal(-3.14).  Both slips
contradict the spec, which promises exact values for signed numerals; the
sign handling in parse_num shows negatives were intended to work. -/
theorem c4_negative_numerals_eval :
    from_str "-5".toList = some (.error (.msg "Invalid input")) ∧
    from_str "-3.14".toList = some (.error (.msg "Invalid input")) ∧
    parse_num "-3.14".toList = some (.ok (.Decimal (143 / 50), 5)) ∧
    ((143 : ℚ) / 50 ≠ -(157 / 50)) := by
  refine ⟨rfl, rfl, ?_, by norm_num⟩
  have h : parse_num "-3.14".toList = some (.ok (assemble_num 3 2 14 5 true, 5)) := rfl
  rw [h]
  norm_num [assemble_num, wrap64]

/-- C5 counterexample: "[]" parses successfully but inserting one space
between the brackets makes the parse fail, because the empty-collection fast
path checks the character immediately after the bracket without trimming, and
the element loop then rejects "]" as an invalid value start. -/
theorem c5_counterexample :
    from_str "[]".toList = some (.ok (.List [])) ∧
    from_str "[ ]".toList = some (.error (.msg "Invalid input")) :=
  ⟨rfl, rfl⟩

theorem trim_start_ws_append (ws s : List Char)
    (hws : ∀ c ∈ ws, rust_is_whitespace c = true) :
    (trim_start (ws ++ s)).1 = (trim_start s).1 := by
  induction ws with
  | nil => simp
  | cons c rest ih =>
    have hc : rust_is_whitespace c := hws c (by simp)
    simp only [List.cons_append, trim_start, hc, if_true]
    exact ih (fun c2 hc2 => hws c2 (by simp [hc2]))

/-- C5 amended: whitespace at the start of the input is always skippable
without affecting the result of the public parse, and whitespace around the
delimiters of a non-empty list is trimmed (witnessed concretely); but
whitespace inserted between the brackets of an empty collection turns a
successful parse into a failure, as the counterexample shows. -/
theorem c5_amended_whitespace :
    (∀ ws s : List Char, (∀ c ∈ ws, rust_is_whitespace c = true) →
      from_str (ws ++ s) = from_str s) ∧
    from_str "[ 1 , 2 ]".toList = from_str "[1,2]".toList := by
  constructor
  · intro ws s hws
    unfold from_str
    rw [trim_start_ws_append ws s hws]
  · rfl

/-- C5 amended witness: a single leading space before "1" does not change the
parse result. -/
theorem c5_amended_whitespace_witness :
    from_str ([' '] ++ "1".toList) = from_str "1".toList :=
  c5_amended_whitespace.1 [' '] "1".toList (by decide)

/-- C6: an input whose first character is t, f or n is dispatched to
Boolean(true) with consumed-length 4, Boolean(false) with 5, or Null with 4
respectively, no matter what the remaining characters are. -/
theorem c6_literal_dispatch (fuel : Nat) (c : Char) (rest : List Char) :
    (c = 't' → parse_json (fuel + 1) (c :: rest) = some (.ok (.Boolean true, 4))) ∧
    (c = 'f' → parse_json (fuel + 1) (c :: rest) = some (.ok (.Boolean false, 5))) ∧
    (c = 'n' → parse_json (fuel + 1) (c :: rest) = some (.ok (.Null, 4))) := by
  refine ⟨fun h => ?_, fun h => ?_, fun h => ?_⟩ <;> subst h
  · exact parse_json_t fuel rest
  · exact parse_json_f fuel rest
  · exact parse_json_n fuel rest

/-- C6 witness: the literals followed by trailing junk still dispatch to the
fixed results, consuming 4, 5 and 4 characters. -/
theorem c6_literal_dispatch_witness :
    parse_json 1 ('t' :: "ruthy".toList) = some (.ok (.Boolean true, 4)) ∧
    parse_json 1 ('f' :: "alsey@#".toList) = some (.ok (.Boolean false, 5)) ∧
    parse_json 1 ('n' :: "ull!!".toList) = some (.ok (.Null, 4)) :=
  ⟨(c6_literal_dispatch 0 't' "ruthy".toList).1 rfl,
   (c6_literal_dispatch 0 'f' "alsey@#".toList).2.1 rfl,
   (c6_literal_dispatch 0 'n' "ull!!".toList).2.2 rfl⟩

/-- C7: for an input beginning with a double quote, if the body has a first
unescaped closing quote at index j (escapes spanning two characters, decoded
by the escape table: n to newline, t to tab, r to carriage return, anything
else literally), the string sub-parser returns the decoded text with
consumed-length j + 2; if the body has no unescaped closing quote the parse
fails (with the Unclosed-string message, or the empty message for a dangling
trailing backslash). -/
theorem c7_string_escapes (body : List Char) :
    (∀ j, spec_closing_quote_index body = some j →
      parse_string ('"' :: body) = some (.ok (.String (spec_decode body), j + 2))) ∧
    (spec_closing_quote_index body = none →
      ∃ e, parse_string ('"' :: body) = some (.error e)) := by
  have hspec := parse_string_loop_spec body.length body le_rfl [] 0
  constructor
  · intro j hj
    have heq := hspec.1 j hj
    simp only [parse_string, heq, Option.some.injEq]
    simp
  · intro hn
    obtain ⟨e, he⟩ := hspec.2 hn
    refine ⟨e, ?_⟩
    simp only [parse_string, he]

/-- C7 witness: the body of the string literal "a\nZ" (escape n, then a
closing quote, then trailing junk) decodes to the two characters a, newline
with consumed-length 5. -/
theorem c7_string_escapes_witness :
    parse_string ('"' :: ['a', '\\', 'n', '"', 'x']) =
      some (.ok (.String ['a', '\n'], 5)) :=
  (c7_string_escapes ['a', '\\', 'n', '"', 'x']).1 3 rfl

/-- C8: the map-entry sub-parser fails with the key-not-string message when
the parsed key is not a String; fails with the improper-delimiter message
when the character after the key and any whitespace is not a colon; and when
the key is a String followed (after trimming) by a colon and a parseable
value, it returns the key text, the value, and a consumed-length counting
the key, the trimmed whitespace, the colon and the value. -/
theorem c8_map_entry (fuel : Nat) (chars : List Char) :
    (∀ v n, parse_json_trim fuel chars = some (.ok (v, n)) → (∀ s, v ≠ .String s) →
      parse_map_entry (fuel + 1) chars =
        some (.error (.msg "Map key is not string"))) ∧
    (∀ s n, parse_json_trim fuel chars = some (.ok (.String s, n)) →
      (∀ rest, (trim_start (chars.drop n)).1 ≠ ':' :: rest) →
      parse_map_entry (fuel + 1) chars =
        some (.error (.msg "Improperly delimited map entry"))) ∧
    (∀ s n rest v m, parse_json_trim fuel chars = some (.ok (.String s, n)) →
      (trim_start (chars.drop n)).1 = ':' :: rest →
      parse_json_trim fuel rest = some (.ok (v, m)) →
      parse_map_entry (fuel + 1) chars =
        some (.ok (s, v, n + (trim_start (chars.drop n)).2 + 1 + m))) := by
  refine ⟨?_, ?_, ?_⟩
  · intro v n hjt hnot
    unfold parse_map_entry
    rw [hjt]
    cases v with
    | String s => exact absurd rfl (hnot s)
    | Integer i => rfl
    | Decimal q => rfl
    | List l => rfl
    | Map m => rfl
    | Boolean b => rfl
    | Null => rfl
  · intro s n hjt hnocolon
    have hle : n ≤ chars.length := parse_json_trim_string_le hjt
    unfold parse_map_entry
    rw [hjt]
    simp only [if_pos hle]
  · intro s n rest v m hjt hcolon hval
    have hle : n ≤ chars.length := parse_json_trim_string_le hjt
    unfold parse_map_entry
    rw [hjt]
    simp only [if_pos hle, hcolon, hval]

/-- C8 witness: the entry text consisting of a quoted key a, a space, a
colon, a space and the numeral 1 parses to the key a with value Integer 1,
consuming all 7 characters. -/
theorem c8_map_entry_witness :
    parse_map_entry 6 ('"' :: 'a' :: '"' :: ' ' :: ':' :: ' ' :: '1' :: []) =
      some (.ok (['a'], .Integer 1, 7)) :=
  (c8_map_entry 5 ('"' :: 'a' :: '"' :: ' ' :: ':' :: ' ' :: '1' :: [])).2.2
    ['a'] 3 [' ', '1'] (.Integer 1) 2 rfl rfl rfl

/-- C9: the public parse trims leading whitespace, parses one leading
production, and discards the consumed length entirely, so any Ok result of
the inner parser is returned as-is no matter what characters follow the
consumed prefix. -/
theorem c9_prefix_only (s : List Char) (v : JSONValue) (n : Nat)
    (h : parse_json_trim (FUEL (trim_start s).1) (trim_start s).1 = some (.ok (v, n))) :
    from_str s = some (.ok v) := by
  unfold from_str
  rw [h]

/-- C9 witness: "1 @@@" parses to Integer 1 even though the junk after the
numeral is never examined. -/
theorem c9_prefix_only_witness :
    from_str "1 @@@".toList = some (.ok (.Integer 1)) :=
  c9_prefix_only "1 @@@".toList (.Integer 1) 1 rfl

set_option maxRecDepth 8000 in
/-- C10: twenty nines overflow the wrapping 64-bit accumulator: the parse
returns Integer 7766279631452241919, which is the mathematical value
10^20 - 1 reduced modulo 2^64, not the value itself. -/
theorem c10_integer_overflow :
    parse_num (List.replicate 20 '9') =
      some (.ok (.Integer 7766279631452241919, 20)) ∧
    (7766279631452241919 : Int) ≠ 10 ^ 20 - 1 :=
  ⟨rfl, by decide⟩
